import Mathlib

/-!
Verification of the display-width string engine of `tabled`/`papergrid`
(`src/papergrid/src/util.rs`) and of the border-composition behaviour
exercised by `src/tests/style_test.rs`.

Strings are modelled as `List Char` (Rust `&str` is a sequence of Unicode
scalar values); byte positions are tracked through `Char.utf8Size`, exactly
as the Rust code tracks `c.len_utf8()`.
-/

/-- Width of a single codepoint, following the `unicode_width` crate used by
the source (`UnicodeWidthChar::width(c).unwrap_or(0)`): control characters
yield 0, combining marks and other zero-width codepoints yield 0, wide
East-Asian/emoji codepoints yield 2, everything else 1.  The table below
covers the representative ranges of the crate's Unicode data. -/
def charWidth (c : Char) : Nat :=
  let n := c.toNat
  if n < 0x20 then 0
  else if n = 0x7F then 0
  else if 0x80 ≤ n ∧ n ≤ 0x9F then 0
  else if 0x300 ≤ n ∧ n ≤ 0x36F then 0
  else if 0x200B ≤ n ∧ n ≤ 0x200F then 0
  else if n = 0xFE0F then 0
  else if 0x1100 ≤ n ∧ n ≤ 0x115F then 2
  else if 0x2E80 ≤ n ∧ n ≤ 0xA4CF then 2
  else if 0xAC00 ≤ n ∧ n ≤ 0xD7A3 then 2
  else if 0xF900 ≤ n ∧ n ≤ 0xFAFF then 2
  else if 0xFE30 ≤ n ∧ n ≤ 0xFE4F then 2
  else if 0xFF00 ≤ n ∧ n ≤ 0xFF60 then 2
  else if 0xFFE0 ≤ n ∧ n ≤ 0xFFE6 then 2
  else if 0x1F300 ≤ n ∧ n ≤ 0x1FAFF then 2
  else if 0x20000 ≤ n ∧ n ≤ 0x3FFFD then 2
  else 1

/-- `string_width` (non-color build): `unicode_width::UnicodeWidthStr::width`,
the sum of the codepoint widths. -/
def stringWidth (s : List Char) : Nat :=
  (s.map charWidth).sum

/-- Total UTF-8 byte length of a char sequence (`str::len`). -/
def utf8Len (s : List Char) : Nat :=
  (s.map Char.utf8Size).sum

/-- The replacement placeholder `REPLACEMENT = '\u{FFFD}'` of `cut_str`. -/
def replacementChar : Char := '�'

/-- Loop of `string_split_at_length`: walks the chars of `s` carrying the
byte index `length` and the accumulated display width `i`; stops when
`i == width`, and when a char would overflow the budget returns the count of
missing width units together with that char's UTF-8 size. -/
def splitGo (width : Nat) : List Char → Nat → Nat → Nat × Nat × Nat
  | [], length, _ => (length, 0, 0)
  | c :: cs, length, i =>
    if i = width then (length, 0, 0)
    else if width < i + charWidth c then (length, width - i, c.utf8Size)
    else splitGo width cs (length + c.utf8Size) (i + charWidth c)

/-- `string_split_at_length(s, width)`: returns
`(byte length to keep, number of replacement placeholders, UTF-8 size of the
boundary-splitting char)`. -/
def stringSplitAtLength (s : List Char) (width : Nat) : Nat × Nat × Nat :=
  splitGo width s 0 0

/-- Byte-based slicing `&s[..n]` on a char sequence: keeps chars while their
cumulative UTF-8 size fits in `n`. -/
def takeBytes : List Char → Nat → List Char
  | [], _ => []
  | c :: cs, n => if c.utf8Size ≤ n then c :: takeBytes cs (n - c.utf8Size) else []

/-- `n` is a char boundary of `s` (Rust `str::is_char_boundary`): `n` is the
total UTF-8 size of some char prefix of `s`. -/
def charBoundary : List Char → Nat → Bool
  | [], n => n == 0
  | c :: cs, n =>
    if n = 0 then true
    else if c.utf8Size ≤ n then charBoundary cs (n - c.utf8Size) else false

/-- `cut_str(s, width)` (non-color build): slice the kept byte prefix out of
`s` and append the replacement placeholders. -/
def cutStr (s : List Char) (width : Nat) : List Char :=
  let r := stringSplitAtLength s width
  takeBytes s r.1 ++ List.replicate r.2.1 replacementChar

/-- Char-level reading of the kept part of `string_split_at_length`, phrased
with the remaining budget `w = width - i`. -/
def cutKeep : Nat → List Char → List Char
  | _, [] => []
  | w, c :: cs =>
    if w = 0 then []
    else if w < charWidth c then []
    else c :: cutKeep (w - charWidth c) cs

/-- Char-level reading of the placeholder count of `string_split_at_length`. -/
def cutFill : Nat → List Char → Nat
  | _, [] => 0
  | w, c :: cs =>
    if w = 0 then 0
    else if w < charWidth c then w
    else cutFill (w - charWidth c) cs

/-- Char-level reading of the third component of `string_split_at_length`. -/
def cutBoundarySize : Nat → List Char → Nat
  | _, [] => 0
  | w, c :: cs =>
    if w = 0 then 0
    else if w < charWidth c then c.utf8Size
    else cutBoundarySize (w - charWidth c) cs

/-- Last char of the string has display width 0 (`cut_str` can drop such a
suffix when the budget is reached exactly). -/
def endsInZeroWidth (s : List Char) : Bool :=
  match s.getLast? with
  | none => false
  | some c => charWidth c == 0

/-- `count_tabs`: `bytecount::count(s.as_bytes(), b'\t')`; in valid UTF-8 the
byte `0x09` occurs exactly at the tab characters. -/
def countTabs (s : List Char) : Nat :=
  s.count '\t'

/-- `count_lines`: 1 for the empty string, otherwise
`bytecount::count(s.as_bytes(), b'\n') + 1`; in valid UTF-8 the byte `0x0A`
occurs exactly at the line-feed characters. -/
def countLines (s : List Char) : Nat :=
  if s.isEmpty then 1 else s.count '\n' + 1

/-- `string_width_tab(text, tab_width) = string_width(text) + count_tabs(text) * tab_width`. -/
def stringWidthTab (s : List Char) (tabWidth : Nat) : Nat :=
  stringWidth s + countTabs s * tabWidth

/-- Loop of `replace_tab_range`: repeatedly finds the next tab after `skip`;
a tab whose preceding byte is a backslash is skipped, otherwise it is removed
(`n == 0`, the scan resumes at the same position, so the preceding char of
the next tab is unchanged) or replaced by `n` spaces (the scan resumes after
the first inserted space, so the char preceding the next tab is a space when
adjacent).  `prev` is the character immediately before the scan position. -/
def replaceTabGo (n : Nat) : Option Char → List Char → List Char
  | _, [] => []
  | prev, c :: rest =>
    if c = '\t' then
      if prev = some '\\' then c :: replaceTabGo n (some c) rest
      else if n = 0 then replaceTabGo n prev rest
      else List.replicate n ' ' ++ replaceTabGo n (some ' ') rest
    else c :: replaceTabGo n (some c) rest

/-- `replace_tab(text, n)`: the `n == 4` fast path is
`text.replace('\t', "    ")` (every tab, escaped or not); the general path
runs `replace_tab_range`. -/
def replaceTab (s : List Char) (n : Nat) : List Char :=
  if n = 4 then s.flatMap (fun c => if c = '\t' then List.replicate 4 ' ' else [c])
  else replaceTabGo n none s

/-- Some tab of the list is immediately preceded by a backslash, where `prev`
is the character right before the head of the list. -/
def hasEscapedTabFrom : Option Char → List Char → Bool
  | _, [] => false
  | prev, c :: rest => (c == '\t' && prev == some '\\') || hasEscapedTabFrom (some c) rest

/-- The character sitting immediately before the scan position of the
`replace_tab_range` loop after it has processed the given prefix: unchanged
by a removal (`n = 0`), a space after a replacement, the char itself
otherwise. -/
def replacePrevAfter (n : Nat) : Option Char → List Char → Option Char
  | prev, [] => prev
  | prev, c :: rest =>
    if c = '\t' then
      if prev = some '\\' then replacePrevAfter n (some c) rest
      else if n = 0 then replacePrevAfter n prev rest
      else replacePrevAfter n (some ' ') rest
    else replacePrevAfter n (some c) rest

/-- Modelled from the spec: a border Line (§3, §4.4) — the `tabled` Style and
Grid rendering code is not under src (only `style_test.rs` exercises it).  A
Line has a main horizontal fill glyph and an intersection glyph. -/
structure BorderLine where
  main : Char
  intersect : Char
deriving DecidableEq

/-- Modelled from the spec: a Style (§3, §4.4) — independently nullable Lines
for the top frame, bottom frame, header separator and inner row splits, plus
the inner vertical separator character. -/
structure TableStyle where
  frameTop : Option BorderLine
  frameBottom : Option BorderLine
  headerLine : Option BorderLine
  splitLine : Option BorderLine
  vertical : Char
deriving DecidableEq

/-- Modelled from the spec: `Style::header(None)` of `style_head_changes` —
disabling only the header separator Line, leaving every other Line as is. -/
def headerNone (st : TableStyle) : TableStyle :=
  ⟨st.frameTop, st.frameBottom, none, st.splitLine, st.vertical⟩

/-- Pointwise max of two width lists, keeping the longer tail. -/
def joinMax : List Nat → List Nat → List Nat
  | [], ys => ys
  | xs, [] => xs
  | x :: xs, y :: ys => max x y :: joinMax xs ys

/-- Modelled from the spec (§4.5): per-column widths, the max display width
over the column's cells. -/
def colWidths (g : List (List (List Char))) : List Nat :=
  g.foldl (fun acc row => joinMax acc (row.map stringWidth)) []

/-- Modelled from the spec (§4.5): pad a cell line with spaces on the right
up to the column width. -/
def padCell (w : Nat) (cell : List Char) : List Char :=
  cell ++ List.replicate (w - stringWidth cell) ' '

/-- Modelled from the spec (§4.5): one content row — cells padded to their
column widths, one space of margin, the vertical separator between and
around the cells. -/
def renderRow (v : Char) (ws : List Nat) (row : List (List Char)) : List Char :=
  [v] ++ (ws.zip row).flatMap (fun p => ' ' :: (padCell p.1 p.2 ++ [' ', v]))

/-- Modelled from the spec (§4.4): one horizontal rule built from a Line —
the main glyph across each column span, the intersection glyph at the
vertical separator positions. -/
def renderRule (l : BorderLine) (ws : List Nat) : List Char :=
  [l.intersect] ++ ws.flatMap (fun w => List.replicate (w + 2) l.main ++ [l.intersect])

/-- An optional Line renders as one rule when present, nothing when `None`. -/
def optRule : Option BorderLine → List Nat → List (List Char)
  | none, _ => []
  | some l, ws => [renderRule l ws]

/-- Modelled from the spec (§4.5): the data rows, a split rule between every
two adjacent rows when the split Line is present. -/
def renderDataRows (v : Char) (sp : Option BorderLine) (ws : List Nat) :
    List (List (List Char)) → List (List Char)
  | [] => []
  | [r] => [renderRow v ws r]
  | r :: r2 :: rest => renderRow v ws r :: (optRule sp ws ++ renderDataRows v sp ws (r2 :: rest))

/-- Modelled from the spec (§4.5): the rendered table — optional top frame,
header row, optional header separator, data rows with splits, optional
bottom frame. -/
def renderTable (st : TableStyle) (g : List (List (List Char))) : List (List Char) :=
  let ws := colWidths g
  match g with
  | [] => optRule st.frameTop ws ++ optRule st.frameBottom ws
  | hrow :: rest =>
    optRule st.frameTop ws
      ++ [renderRow st.vertical ws hrow]
      ++ optRule st.headerLine ws
      ++ renderDataRows st.vertical st.splitLine ws rest
      ++ optRule st.frameBottom ws

/-- The part of the rendered table above the header separator: the optional
top frame and the header row. -/
def renderAboveHeader (st : TableStyle) (ws : List Nat) (hrow : List (List Char)) :
    List (List Char) :=
  optRule st.frameTop ws ++ [renderRow st.vertical ws hrow]

/-- The part of the rendered table below the header separator: the data rows
with their splits and the optional bottom frame. -/
def renderBelowHeader (st : TableStyle) (ws : List Nat) (rest : List (List (List Char))) :
    List (List Char) :=
  renderDataRows st.vertical st.splitLine ws rest ++ optRule st.frameBottom ws

/-- The header separator Line of the fully-bordered test style. -/
def testHeaderBorder : BorderLine := ⟨'-', '+'⟩

/-- A fully-bordered style in the shape of `Style::ascii()` from the tests. -/
def testStyle : TableStyle :=
  ⟨some ⟨'-', '+'⟩, some ⟨'-', '+'⟩, some testHeaderBorder, some ⟨'-', '+'⟩, '|'⟩

/-- The header row of the 3 by 3 grid of `create_vector` in the tests. -/
def testHeaderRow : List (List Char) :=
  ["N".data, "column 0".data, "column 1".data, "column 2".data]

/-- The data rows of the 3 by 3 grid of `create_vector` in the tests. -/
def testDataRows : List (List (List Char)) :=
  [["0".data, "0-0".data, "0-1".data, "0-2".data],
   ["1".data, "1-0".data, "1-1".data, "1-2".data],
   ["2".data, "2-0".data, "2-1".data, "2-2".data]]

theorem stringWidth_nil : stringWidth [] = 0 := rfl

theorem stringWidth_cons (c : Char) (cs : List Char) :
    stringWidth (c :: cs) = charWidth c + stringWidth cs := by
  simp [stringWidth]

theorem stringWidth_append (a b : List Char) :
    stringWidth (a ++ b) = stringWidth a + stringWidth b := by
  simp [stringWidth]

theorem utf8Len_cons (c : Char) (cs : List Char) :
    utf8Len (c :: cs) = c.utf8Size + utf8Len cs := by
  simp [utf8Len]

theorem utf8Len_append (a b : List Char) :
    utf8Len (a ++ b) = utf8Len a + utf8Len b := by
  simp [utf8Len]

theorem charWidth_replacement : charWidth replacementChar = 1 := by
  decide

theorem stringWidth_replicate_replacement (k : Nat) :
    stringWidth (List.replicate k replacementChar) = k := by
  induction k with
  | zero => rfl
  | succ k ih =>
    simp [List.replicate_succ, stringWidth_cons, ih, charWidth_replacement]
    omega

theorem stringWidth_replicate_space (k : Nat) :
    stringWidth (List.replicate k ' ') = k := by
  induction k with
  | zero => rfl
  | succ k ih =>
    have hspc : charWidth ' ' = 1 := by decide
    simp only [List.replicate_succ, stringWidth_cons, hspc, ih]
    omega

/-- The loop of `string_split_at_length` computes, in char-level terms, the
kept prefix, the fill count and the boundary char size for the remaining
budget `width - i`. -/
theorem splitGo_eq (width : Nat) :
    ∀ (s : List Char) (length i : Nat), i ≤ width →
      splitGo width s length i =
        (length + utf8Len (cutKeep (width - i) s),
          cutFill (width - i) s, cutBoundarySize (width - i) s) := by
  intro s
  induction s with
  | nil => intro length i _; simp [splitGo, cutKeep, cutFill, cutBoundarySize, utf8Len]
  | cons c cs ih =>
    intro length i hi
    by_cases h0 : i = width
    · have hw : width - i = 0 := by omega
      simp [splitGo, h0, hw, cutKeep, cutFill, cutBoundarySize, utf8Len]
    · have hw0 : width - i ≠ 0 := by omega
      by_cases hov : width < i + charWidth c
      · have hcw : width - i < charWidth c := by omega
        simp [splitGo, h0, hov, cutKeep, cutFill, cutBoundarySize, hw0, hcw, utf8Len]
      · have hcw : ¬ width - i < charWidth c := by omega
        have hle : i + charWidth c ≤ width := by omega
        rw [splitGo]
        simp only [h0, if_false, hov, if_false, ite_false]
        rw [ih (length + c.utf8Size) (i + charWidth c) hle]
        have harith : width - (i + charWidth c) = width - i - charWidth c := by omega
        simp [cutKeep, cutFill, cutBoundarySize, hw0, hcw, utf8Len_cons, harith]
        omega

/-- `string_split_at_length` in char-level terms. -/
theorem stringSplitAtLength_eq (s : List Char) (width : Nat) :
    stringSplitAtLength s width =
      (utf8Len (cutKeep width s), cutFill width s, cutBoundarySize width s) := by
  have h := splitGo_eq width s 0 0 (Nat.zero_le _)
  simpa [stringSplitAtLength] using h

/-- `cutKeep` is a prefix of the input. -/
theorem cutKeep_append (w : Nat) (s : List Char) :
    ∃ t, s = cutKeep w s ++ t := by
  induction s generalizing w with
  | nil => exact ⟨[], rfl⟩
  | cons c cs ih =>
    by_cases h0 : w = 0
    · exact ⟨c :: cs, by simp [cutKeep, h0]⟩
    · by_cases hcw : w < charWidth c
      · exact ⟨c :: cs, by simp [cutKeep, h0, hcw]⟩
      · obtain ⟨t, ht⟩ := ih (w - charWidth c)
        exact ⟨t, by simp [cutKeep, h0, hcw]; exact ht⟩

/-- Slicing `s` at the byte length of the kept prefix recovers exactly the
kept prefix. -/
theorem takeBytes_cutKeep : ∀ (s : List Char) (w : Nat),
    takeBytes s (utf8Len (cutKeep w s)) = cutKeep w s := by
  intro s
  induction s with
  | nil => intro w; rfl
  | cons c cs ih =>
    intro w
    have hpos : 0 < c.utf8Size := Char.utf8Size_pos c
    by_cases h0 : w = 0
    · simp [cutKeep, h0, takeBytes, utf8Len]
      omega
    · by_cases hcw : w < charWidth c
      · simp [cutKeep, h0, hcw, takeBytes, utf8Len]
        omega
      · simp [cutKeep, h0, hcw, takeBytes, utf8Len_cons, ih]

/-- `cut_str` in char-level terms: the kept char prefix followed by the
replacement placeholders. -/
theorem cutStr_eq (s : List Char) (width : Nat) :
    cutStr s width = cutKeep width s ++ List.replicate (cutFill width s) replacementChar := by
  rw [cutStr, stringSplitAtLength_eq]
  simp only
  rw [takeBytes_cutKeep]

/-- The width of the kept prefix plus the fill count is exactly the budget
when the source is wide enough. -/
theorem cutKeep_fill_exact : ∀ (s : List Char) (w : Nat), w ≤ stringWidth s →
    stringWidth (cutKeep w s) + cutFill w s = w := by
  intro s
  induction s with
  | nil =>
    intro w hw
    have : w = 0 := by simpa [stringWidth] using hw
    simp [cutKeep, cutFill, this, stringWidth]
  | cons c cs ih =>
    intro w hw
    by_cases h0 : w = 0
    · simp [cutKeep, cutFill, h0, stringWidth]
    · by_cases hcw : w < charWidth c
      · simp [cutKeep, cutFill, h0, hcw, stringWidth]
      · rw [stringWidth_cons] at hw
        have hrec := ih (w - charWidth c) (by omega)
        simp [cutKeep, cutFill, h0, hcw, stringWidth_cons]
        omega

/-- The width of the kept prefix plus the fill count never exceeds the
budget. -/
theorem cutKeep_fill_le : ∀ (s : List Char) (w : Nat),
    stringWidth (cutKeep w s) + cutFill w s ≤ w := by
  intro s
  induction s with
  | nil => intro w; simp [cutKeep, cutFill, stringWidth]
  | cons c cs ih =>
    intro w
    by_cases h0 : w = 0
    · simp [cutKeep, cutFill, h0, stringWidth]
    · by_cases hcw : w < charWidth c
      · simp [cutKeep, cutFill, h0, hcw, stringWidth]
      · have hrec := ih (w - charWidth c)
        simp [cutKeep, cutFill, h0, hcw, stringWidth_cons]
        omega

/-- When the char `c` is reached with accumulated width strictly below the
budget and would overflow it, the scan keeps exactly the part before `c` and
asks for the remaining budget in placeholders. -/
theorem cut_overflow : ∀ (p : List Char) (c : Char) (t : List Char) (w : Nat),
    stringWidth p < w → w < stringWidth p + charWidth c →
    cutKeep w (p ++ c :: t) = p ∧ cutFill w (p ++ c :: t) = w - stringWidth p := by
  intro p
  induction p with
  | nil =>
    intro c t w h1 h2
    rw [stringWidth_nil] at h1 h2
    have h0 : w ≠ 0 := by omega
    have hcw : w < charWidth c := by omega
    simp [cutKeep, cutFill, h0, hcw, stringWidth]
  | cons a p ih =>
    intro c t w h1 h2
    rw [stringWidth_cons] at h1 h2
    have h0 : w ≠ 0 := by omega
    have hcw : ¬ w < charWidth a := by omega
    have hrec := ih c t (w - charWidth a) (by omega) (by omega)
    simp [cutKeep, cutFill, h0, hcw, stringWidth_cons, hrec.1, hrec.2]
    omega

/-- A zero-width string that is not empty ends in a zero-width char. -/
theorem endsInZeroWidth_of_width_zero : ∀ (s : List Char), s ≠ [] →
    stringWidth s = 0 → endsInZeroWidth s = true := by
  intro s
  induction s with
  | nil => intro h; exact absurd rfl h
  | cons c cs ih =>
    intro _ hw
    rw [stringWidth_cons] at hw
    cases cs with
    | nil =>
      simp [endsInZeroWidth, List.getLast?]
      omega
    | cons d ds =>
      have h2 : endsInZeroWidth (d :: ds) = true := ih (by simp) (by omega)
      simpa [endsInZeroWidth, List.getLast?_cons_cons] using h2

/-- When the budget covers the whole string, and is not hit exactly while a
zero-width suffix remains, the scan keeps everything and fills nothing. -/
theorem cutKeep_full : ∀ (s : List Char) (w : Nat), stringWidth s ≤ w →
    (stringWidth s = w → endsInZeroWidth s = false) →
    cutKeep w s = s ∧ cutFill w s = 0 := by
  intro s
  induction s with
  | nil => intro w _ _; simp [cutKeep, cutFill]
  | cons c cs ih =>
    intro w hw hz
    rw [stringWidth_cons] at hw
    by_cases h0 : w = 0
    · exfalso
      have hzz : endsInZeroWidth (c :: cs) = true :=
        endsInZeroWidth_of_width_zero (c :: cs) (by simp)
          (by rw [stringWidth_cons]; omega)
      have : endsInZeroWidth (c :: cs) = false := by
        apply hz; rw [stringWidth_cons]; omega
      rw [this] at hzz
      exact Bool.false_ne_true hzz
    · have hcw : ¬ w < charWidth c := by omega
      have hz2 : stringWidth cs = w - charWidth c → endsInZeroWidth cs = false := by
        intro hcs
        cases cs with
        | nil => simp [endsInZeroWidth]
        | cons d ds =>
          have := hz (by rw [stringWidth_cons]; omega)
          simpa [endsInZeroWidth, List.getLast?_cons_cons] using this
      have hrec := ih (w - charWidth c) (by omega) hz2
      simp [cutKeep, cutFill, h0, hcw, hrec.1, hrec.2]

/-- Boundary byte positions are stable under appending a suffix. -/
theorem charBoundary_append : ∀ (p t : List Char),
    charBoundary (p ++ t) (utf8Len p) = true := by
  intro p
  induction p with
  | nil =>
    intro t
    cases t with
    | nil => rfl
    | cons c cs => simp [charBoundary, utf8Len]
  | cons c p ih =>
    intro t
    have hpos : 0 < c.utf8Size := Char.utf8Size_pos c
    by_cases h0 : c.utf8Size + utf8Len p = 0
    · omega
    · rw [List.cons_append, utf8Len_cons, charBoundary]
      rw [if_neg (by omega), if_pos (by omega)]
      have harith : c.utf8Size + utf8Len p - c.utf8Size = utf8Len p := by omega
      rw [harith]
      exact ih t

/-- C1: for every string `s` and every width `w` with `w ≤ string_width(s)`,
the display width of the cut result is exactly `w`:
`string_width(cut_str(s, w)) = w`, never more and never less. -/
theorem cut_str_width_exact (s : List Char) (w : Nat) (h : w ≤ stringWidth s) :
    stringWidth (cutStr s w) = w := by
  rw [cutStr_eq, stringWidth_append, stringWidth_replicate_replacement]
  exact cutKeep_fill_exact s w h

theorem cut_str_width_exact_witness :
    2 ≤ stringWidth ['a', 'b', 'c'] ∧ stringWidth (cutStr ['a', 'b', 'c'] 2) = 2 :=
  ⟨by decide, cut_str_width_exact ['a', 'b', 'c'] 2 (by decide)⟩

/-- C2: when the scan reaches a codepoint `c` whose width would push the
accumulated width `string_width(p)` strictly past `w`, `cut_str` excludes
`c` entirely and appends exactly `w - string_width(p)` replacement
placeholders; in particular a width-2 glyph cut at a 1-unit budget yields
exactly one placeholder and no partial glyph. -/
theorem cut_str_overflow_excluded (p : List Char) (c : Char) (t : List Char) (w : Nat)
    (h1 : stringWidth p < w) (h2 : w < stringWidth p + charWidth c) :
    cutStr (p ++ c :: t) w = p ++ List.replicate (w - stringWidth p) replacementChar := by
  rw [cutStr_eq, (cut_overflow p c t w h1 h2).1, (cut_overflow p c t w h1 h2).2]

theorem cut_str_overflow_excluded_witness :
    cutStr [Char.ofNat 0x4E00] 1 = List.replicate 1 replacementChar := by
  have h := cut_str_overflow_excluded [] (Char.ofNat 0x4E00) [] 1 (by decide) (by decide)
  simpa using h

/-- C10: for every string `s` and every width `w`, with no precondition, the
display width of the cut result never exceeds the budget:
`string_width(cut_str(s, w)) ≤ w`. -/
theorem cut_str_width_le (s : List Char) (w : Nat) :
    stringWidth (cutStr s w) ≤ w := by
  rw [cutStr_eq, stringWidth_append, stringWidth_replicate_replacement]
  exact cutKeep_fill_le s w

/-- C8: the byte length returned by `string_split_at_length` never exceeds
the byte length of `s` and always lies on a char boundary of `s`, so the
slicing `&s[..length]` done by `cut_str` cannot fail — including for the
empty string and for `w = 0`. -/
theorem string_split_at_length_safe (s : List Char) (w : Nat) :
    (stringSplitAtLength s w).1 ≤ utf8Len s ∧
      charBoundary s (stringSplitAtLength s w).1 = true := by
  rw [stringSplitAtLength_eq]
  obtain ⟨t, ht⟩ := cutKeep_append w s
  constructor
  · have hle : utf8Len (cutKeep w s) ≤ utf8Len (cutKeep w s ++ t) := by
      rw [utf8Len_append]; omega
    rw [← ht] at hle
    exact hle
  · have hb := charBoundary_append (cutKeep w s) t
    rw [← ht] at hb
    exact hb

/-- C3 counterexample: for `s = ['a', combining acute]` (a string ending in a
zero-width codepoint) and `w = string_width(s) = 1`, `cut_str` does not
return `s` unchanged — the zero-width suffix is dropped. -/
theorem cut_str_keeps_short_counterexample :
    stringWidth ['a', '́'] ≤ 1 ∧ cutStr ['a', '́'] 1 ≠ ['a', '́'] := by
  decide

/-- C3 amended: for every `w ≥ string_width(s)`, `cut_str(s, w) = s` with no
placeholders added, provided that when `w` equals `string_width(s)` exactly
the string does not end in a zero-width codepoint (otherwise the maximal
zero-width suffix is dropped, still without placeholders). -/
theorem cut_str_keeps_short (s : List Char) (w : Nat) (h : stringWidth s ≤ w)
    (hz : stringWidth s = w → endsInZeroWidth s = false) :
    cutStr s w = s := by
  rw [cutStr_eq, (cutKeep_full s w h hz).1, (cutKeep_full s w h hz).2]
  simp

theorem cut_str_keeps_short_witness :
    stringWidth ['a', 'b'] ≤ 5 ∧ cutStr ['a', 'b'] 5 = ['a', 'b'] :=
  ⟨by decide, cut_str_keeps_short ['a', 'b'] 5 (by decide) (by intro h; exact absurd h (by decide))⟩

/-- Whether some escaped tab exists does not depend on the previous char as
long as that char is not a backslash. -/
theorem hasEscapedTabFrom_congr (p q : Option Char) (l : List Char)
    (hp : p ≠ some '\\') (hq : q ≠ some '\\') :
    hasEscapedTabFrom p l = hasEscapedTabFrom q l := by
  cases l with
  | nil => rfl
  | cons c cs =>
    have hp2 : (p == some '\\') = false := by
      cases p with
      | none => rfl
      | some a => simpa using fun h => hp (by rw [h])
    have hq2 : (q == some '\\') = false := by
      cases q with
      | none => rfl
      | some a => simpa using fun h => hq (by rw [h])
    simp [hasEscapedTabFrom, hp2, hq2]

/-- Display width of the output of the `replace_tab_range` loop: every tab
(none being escaped) contributes `n` width units of spaces. -/
theorem replaceTabGo_width : ∀ (s : List Char) (n : Nat) (prev : Option Char),
    hasEscapedTabFrom prev s = false →
    stringWidth (replaceTabGo n prev s) = stringWidth s + n * s.count '\t' := by
  intro s
  induction s with
  | nil => intro n prev _; simp [replaceTabGo, stringWidth]
  | cons c cs ih =>
    intro n prev h
    rw [hasEscapedTabFrom] at h
    have h1 : (c == '\t' && prev == some '\\') = false := by
      cases hx : (c == '\t' && prev == some '\\') <;> simp_all
    have h2 : hasEscapedTabFrom (some c) cs = false := by
      cases hx : hasEscapedTabFrom (some c) cs <;> simp_all
    by_cases hc : c = '\t'
    · have hprev : prev ≠ some '\\' := by
        intro hpe
        rw [hc, hpe] at h1
        simp at h1
      have hcnt : (c :: cs).count '\t' = cs.count '\t' + 1 := by
        simp [List.count_cons, hc]
      have hw : charWidth '\t' = 0 := by decide
      by_cases hn : n = 0
      · have h3 : hasEscapedTabFrom prev cs = false := by
          rw [hasEscapedTabFrom_congr prev (some c) cs hprev (by simp [hc])]
          exact h2
        rw [replaceTabGo, if_pos hc, if_neg hprev, if_pos hn]
        rw [ih n prev h3, stringWidth_cons, hcnt, hc, hw, hn]
        ring
      · have h3 : hasEscapedTabFrom (some ' ') cs = false := by
          rw [hasEscapedTabFrom_congr (some ' ') (some c) cs (by simp) (by simp [hc])]
          exact h2
        rw [replaceTabGo, if_pos hc, if_neg hprev, if_neg hn]
        rw [stringWidth_append, ih n (some ' ') h3]
        rw [stringWidth_replicate_space, stringWidth_cons, hcnt, hc, hw]
        ring
    · rw [replaceTabGo, if_neg hc]
      rw [stringWidth_cons, ih n (some c) h2, stringWidth_cons]
      have hcount : (c :: cs).count '\t' = cs.count '\t' := by
        simp [List.count_cons, hc]
      rw [hcount]
      omega

/-- Display width of the `n = 4` fast path of `replace_tab`: every tab,
escaped or not, becomes four spaces. -/
theorem replaceTab_four_width : ∀ (s : List Char),
    stringWidth (s.flatMap fun c => if c = '\t' then List.replicate 4 ' ' else [c]) =
      stringWidth s + 4 * s.count '\t' := by
  intro s
  induction s with
  | nil => simp [stringWidth]
  | cons c cs ih =>
    by_cases hc : c = '\t'
    · rw [List.flatMap_cons, if_pos hc]
      rw [stringWidth_append, ih]
      have hw : charWidth '\t' = 0 := by decide
      have hsp : stringWidth (List.replicate 4 ' ') = 4 := by decide
      have hcnt : (c :: cs).count '\t' = cs.count '\t' + 1 := by
        simp [List.count_cons, hc]
      rw [hsp, stringWidth_cons, hcnt, hc, hw]
      ring
    · rw [List.flatMap_cons, if_neg hc]
      rw [List.singleton_append, stringWidth_cons, ih, stringWidth_cons]
      have hcount : (c :: cs).count '\t' = cs.count '\t' := by
        simp [List.count_cons, hc]
      rw [hcount]
      omega

/-- Display width of `replace_tab` on a string with no escaped tab. -/
theorem replaceTab_width (s : List Char) (n : Nat)
    (h : hasEscapedTabFrom none s = false) :
    stringWidth (replaceTab s n) = stringWidth s + n * s.count '\t' := by
  by_cases hn : n = 4
  · rw [replaceTab, if_pos hn, hn, replaceTab_four_width]
  · rw [replaceTab, if_neg hn]
    exact replaceTabGo_width s n none h

/-- C4 counterexample: for `s = ['\\', '\t']` (an escaped tab) and `n = 1`,
the arithmetic tab model and expand-then-measure disagree:
`string_width_tab` counts the escaped tab, `replace_tab` leaves it. -/
theorem width_tab_expand_counterexample :
    stringWidthTab ['\\', '\t'] 1 ≠ stringWidth (replaceTab ['\\', '\t'] 1) := by
  decide

/-- C4 amended: for every string `s` containing no tab immediately preceded
by a backslash, and every tab width `n`, measuring with the arithmetic tab
model equals expanding tabs first and then measuring:
`string_width_tab(s, n) = string_width(replace_tab(s, n))`. -/
theorem width_tab_expand_agree (s : List Char) (n : Nat)
    (h : hasEscapedTabFrom none s = false) :
    stringWidthTab s n = stringWidth (replaceTab s n) := by
  rw [stringWidthTab, countTabs, replaceTab_width s n h]
  ring

theorem width_tab_expand_agree_witness :
    hasEscapedTabFrom none ['a', '\t', 'b'] = false ∧
      stringWidthTab ['a', '\t', 'b'] 3 = stringWidth (replaceTab ['a', '\t', 'b'] 3) :=
  ⟨by decide, width_tab_expand_agree ['a', '\t', 'b'] 3 (by decide)⟩

/-- C5: on the escaped tab `['\\', '\t']` the `n = 4` fast path of
`replace_tab` expands the escaped tab into four spaces, while the general
path (`n = 3`, `n = 0`) leaves it untouched — the fast path contradicts the
escaping behaviour of `replace_tab_range`. -/
theorem replace_tab_fastpath_bug :
    replaceTab ['\\', '\t'] 4 = ['\\', ' ', ' ', ' ', ' '] ∧
      replaceTab ['\\', '\t'] 3 = ['\\', '\t'] ∧
      replaceTab ['\\', '\t'] 0 = ['\\', '\t'] := by
  decide

/-- The `replace_tab_range` scan processes an appended string piecewise: the
suffix is processed with the `prev` char left behind by the prefix. -/
theorem replaceTabGo_append : ∀ (a b : List Char) (n : Nat) (prev : Option Char),
    replaceTabGo n prev (a ++ b)
      = replaceTabGo n prev a ++ replaceTabGo n (replacePrevAfter n prev a) b := by
  intro a
  induction a with
  | nil => intro b n prev; rw [List.nil_append, replaceTabGo, replacePrevAfter, List.nil_append]
  | cons c a ih =>
    intro b n prev
    by_cases hc : c = '\t'
    · by_cases hp : prev = some '\\'
      · rw [List.cons_append, replaceTabGo, if_pos hc, if_pos hp,
          replaceTabGo, if_pos hc, if_pos hp, replacePrevAfter, if_pos hc, if_pos hp]
        rw [ih b n (some c), List.cons_append]
      · by_cases hn : n = 0
        · rw [List.cons_append, replaceTabGo, if_pos hc, if_neg hp, if_pos hn,
            replaceTabGo, if_pos hc, if_neg hp, if_pos hn,
            replacePrevAfter, if_pos hc, if_neg hp, if_pos hn]
          exact ih b n prev
        · rw [List.cons_append, replaceTabGo, if_pos hc, if_neg hp, if_neg hn,
            replaceTabGo, if_pos hc, if_neg hp, if_neg hn,
            replacePrevAfter, if_pos hc, if_neg hp, if_neg hn]
          rw [ih b n (some ' '), List.append_assoc]
    · rw [List.cons_append, replaceTabGo, if_neg hc, replaceTabGo, if_neg hc,
        replacePrevAfter, if_neg hc]
      rw [ih b n (some c), List.cons_append]

/-- C6 counterexample: `count_tabs` counts the escaped tab of `['\\', '\t']`
and `string_width_tab` adds a full tab-width contribution for it; the
`n = 4` path of `replace_tab` expands it. -/
theorem escaped_tab_counted_counterexample :
    countTabs ['\\', '\t'] = 1 ∧
      stringWidthTab ['\\', '\t'] 1 ≠ stringWidth ['\\', '\t'] ∧
      replaceTab ['\\', '\t'] 4 ≠ ['\\', '\t'] := by
  decide

/-- C6 amended: for every string and every `n ≠ 4`, `replace_tab` leaves
each tab immediately preceded by a backslash in place: writing the string as
`p ++ '\\' :: '\t' :: t`, the result is `p` processed by the scan, then the
backslash and the tab unchanged, then `t` processed by the scan (the `n = 4`
fast path instead expands even escaped tabs); `count_tabs` counts every tab
character, escaped or not, and `string_width_tab` adds `tab_width` for each
of them. -/
theorem escaped_tab_behaviour :
    (∀ (p t : List Char) (n : Nat), n ≠ 4 →
      replaceTab (p ++ '\\' :: '\t' :: t) n
        = replaceTabGo n none p ++ '\\' :: '\t' :: replaceTabGo n (some '\t') t) ∧
    (∀ (s : List Char) (n : Nat), stringWidthTab s n = stringWidth s + s.count '\t' * n) := by
  constructor
  · intro p t n hn
    rw [replaceTab, if_neg hn, replaceTabGo_append p ('\\' :: '\t' :: t) n none]
    rw [replaceTabGo, if_neg (by decide : ¬ ('\\' : Char) = '\t'),
      replaceTabGo, if_pos rfl, if_pos rfl]
  · intro s n
    rw [stringWidthTab, countTabs]

theorem escaped_tab_behaviour_witness :
    replaceTab (['a', '\t'] ++ '\\' :: '\t' :: ['b']) 2
      = replaceTabGo 2 none ['a', '\t'] ++ '\\' :: '\t' :: replaceTabGo 2 (some '\t') ['b'] :=
  escaped_tab_behaviour.1 ['a', '\t'] ['b'] 2 (by decide)

/-- C9: `count_lines` returns 1 for the empty string, the number of
line-feed characters plus one for every non-empty string, and 3 on
`"a\nb\n"`. -/
theorem count_lines_spec :
    countLines [] = 1 ∧
      (∀ s : List Char, s ≠ [] → countLines s = s.count '\n' + 1) ∧
      countLines ['a', '\n', 'b', '\n'] = 3 := by
  refine ⟨rfl, ?_, by decide⟩
  intro s hs
  cases s with
  | nil => exact absurd rfl hs
  | cons c cs => simp [countLines]

theorem count_lines_spec_witness :
    (['x', '\n'] : List Char) ≠ [] ∧ countLines ['x', '\n'] = ['x', '\n'].count '\n' + 1 :=
  ⟨by decide, count_lines_spec.2.1 ['x', '\n'] (by decide)⟩

/-- C7: for a style whose header separator Line is present, the rendered
table is the part above the separator, then exactly that one rule, then the
part below; disabling only the header separator yields the very same parts
with that one rule removed — the top frame, the bottom frame and the inner
split lines are all unchanged. -/
theorem header_rule_removal (st : TableStyle) (l : BorderLine)
    (hrow : List (List Char)) (rest : List (List (List Char)))
    (h : st.headerLine = some l) :
    renderTable st (hrow :: rest)
      = renderAboveHeader st (colWidths (hrow :: rest)) hrow
        ++ renderRule l (colWidths (hrow :: rest))
          :: renderBelowHeader st (colWidths (hrow :: rest)) rest
    ∧ renderTable (headerNone st) (hrow :: rest)
      = renderAboveHeader st (colWidths (hrow :: rest)) hrow
        ++ renderBelowHeader st (colWidths (hrow :: rest)) rest := by
  constructor
  · simp [renderTable, renderAboveHeader, renderBelowHeader, optRule, h]
  · simp [renderTable, renderAboveHeader, renderBelowHeader, headerNone, optRule]

theorem header_rule_removal_witness :
    renderTable testStyle (testHeaderRow :: testDataRows)
      = renderAboveHeader testStyle (colWidths (testHeaderRow :: testDataRows)) testHeaderRow
        ++ renderRule testHeaderBorder (colWidths (testHeaderRow :: testDataRows))
          :: renderBelowHeader testStyle (colWidths (testHeaderRow :: testDataRows)) testDataRows
    ∧ renderTable (headerNone testStyle) (testHeaderRow :: testDataRows)
      = renderAboveHeader testStyle (colWidths (testHeaderRow :: testDataRows)) testHeaderRow
        ++ renderBelowHeader testStyle (colWidths (testHeaderRow :: testDataRows)) testDataRows :=
  header_rule_removal testStyle testHeaderBorder testHeaderRow testDataRows rfl
